import Mathlib

/-!
Verification of the replicate-assets repository (two Python scripts:
`replicate-container-image.py` and `replicate-claude-code.py`) against its
natural-language specification.

Python strings are modelled as `List Char`; each Python operation used by the
scripts (`str.split`, `str.rsplit(":", 1)`, `str.replace`, `str.startswith`,
`str.rstrip`, membership tests, f-string concatenation, the regex scan of
`extract_src_base_url`) is given an executable Lean counterpart below, and the
functions of the scripts are translated on top of them keeping source names.
-/

namespace ReplicateAssets

/-- Substring occurrence test: `occurs pat s` is `true` exactly when `pat`
occurs contiguously inside `s` (Python's `pat in s`). -/
def occurs (pat : List Char) : List Char → Bool
  | [] => pat.isEmpty
  | c :: rest => pat.isPrefixOf (c :: rest) || occurs pat rest

/-- Python `s.replace("", new)`: `new` is inserted before every character and
once at the end. -/
def interleave (new : List Char) : List Char → List Char
  | [] => new
  | c :: rest => new ++ c :: interleave new rest

/-- Fuel-driven worker for `pyReplace`; the fuel bounds the length of the
remaining input so the recursion is structural and computable by the kernel. -/
def replaceGo (old new : List Char) : Nat → List Char → List Char
  | 0, s => s
  | _ + 1, [] => []
  | f + 1, c :: rest =>
    if old.isPrefixOf (c :: rest) ∧ old ≠ [] then
      new ++ replaceGo old new f ((c :: rest).drop old.length)
    else
      c :: replaceGo old new f rest

/-- Python `s.replace(old, new)`: left-to-right, non-overlapping literal
replacement of every occurrence of `old` by `new`. -/
def pyReplace (old new s : List Char) : List Char :=
  if old = [] then interleave new s else replaceGo old new s.length s

/-- Fuel-driven worker for `splitOnL`. -/
def splitGo (sep : List Char) : Nat → List Char → List (List Char)
  | 0, s => [s]
  | _ + 1, [] => [[]]
  | f + 1, c :: rest =>
    if sep.isPrefixOf (c :: rest) ∧ sep ≠ [] then
      [] :: splitGo sep f ((c :: rest).drop sep.length)
    else
      match splitGo sep f rest with
      | [] => [[c]]
      | h :: t => (c :: h) :: t

/-- Python `s.split(sep)` for a non-empty literal separator: the chunks of `s`
between the left-to-right non-overlapping occurrences of `sep`. -/
def splitOnL (sep s : List Char) : List (List Char) :=
  splitGo sep s.length s

/-- Python `sep.join(chunks)`. -/
def joinWith (d : List Char) : List (List Char) → List Char
  | [] => []
  | [x] => x
  | x :: y :: t => x ++ d ++ joinWith d (y :: t)

/-- Python `s.rstrip(cs)`: remove trailing characters belonging to `cs`. -/
def pyRstrip (cs s : List Char) : List Char :=
  (s.reverse.dropWhile (fun c => decide (c ∈ cs))).reverse

/-- The implicit default registry `"docker.io"` of the image pipeline. -/
def docker_io : List Char := "docker.io".data

/-- The token `"localhost"` recognised as a registry. -/
def localhostL : List Char := "localhost".data

/-- The default tag `"latest"`. -/
def latestL : List Char := "latest".data

/-- The implicit namespace `"library/"` prepended to single-name `docker.io`
images. -/
def libraryL : List Char := "library/".data

/-- Lines 36-41 of `replicate-container-image.py`: split off the tag with
`image.rsplit(":", 1)` when a `:` is present, else default the tag to
`latest`.  The rsplit-at-the-last-colon is realised by scanning the reversed
string up to its first colon. -/
def split_tag (image : List Char) : List Char × List Char :=
  if ':' ∈ image then
    (((image.reverse.dropWhile (fun c => decide (c ≠ ':'))).tail).reverse,
      (image.reverse.takeWhile (fun c => decide (c ≠ ':'))).reverse)
  else
    (image, latestL)

/-- Lines 43-53 of `replicate-container-image.py`: split the pre-tag part on
`/`; when there are at least two segments and the first contains a dot or is
`localhost` it is the registry and the rest re-joined is the path, otherwise
the registry defaults to `docker.io` and the whole pre-tag part is the path. -/
def detect_registry (image_part : List Char) : List Char × List Char :=
  if 2 ≤ (splitOnL [ '/'] image_part).length ∧
      ('.' ∈ (splitOnL [ '/'] image_part).headD [] ∨
        (splitOnL [ '/'] image_part).headD [] = localhostL) then
    ((splitOnL [ '/'] image_part).headD [],
      joinWith [ '/'] (splitOnL [ '/'] image_part).tail)
  else
    (docker_io, image_part)

/-- Lines 55-57 of `replicate-container-image.py`: for `docker.io`, auto-add
`library/` for single-name images. -/
def add_library (registry path : List Char) : List Char :=
  if registry = docker_io ∧ '/' ∉ path then libraryL ++ path else path

/-- `parse_image` of `replicate-container-image.py` (lines 26-59): parse a
Docker image reference into `(registry, path, tag)`. -/
def parse_image (image : List Char) : List Char × List Char × List Char :=
  let pt := split_tag image
  let rp := detect_registry pt.1
  (rp.1, add_library rp.1 rp.2, pt.2)

/-- `build_target_image` of `replicate-container-image.py` (lines 62-76):
`base/<registry>-<path>:<tag>` with every `/` of `<registry>-<path>` replaced
by `-`.  The module-level configuration value `REGISTRY_BASE_URL` is passed
explicitly as `base`. -/
def build_target_image (base registry path tag : List Char) : List Char :=
  let final_name := pyReplace [ '/'] [ '-'] (registry ++ [ '-'] ++ path)
  base ++ [ '/'] ++ final_name ++ [ ':'] ++ tag

/-- Source-to-target map of the image pipeline: `replicate_image` lines
151-152 compose `parse_image` and `build_target_image`. -/
def target_of_ref (base ref : List Char) : List Char :=
  build_target_image base (parse_image ref).1 (parse_image ref).2.1
    (parse_image ref).2.2

/-- Line 135 of `replicate-claude-code.py`:
`binary_name = "claude.exe" if platform.startswith("win") else "claude"`. -/
def binary_name (platform : List Char) : List Char :=
  if ("win".data).isPrefixOf platform then "claude.exe".data else "claude".data

/-- Lines 134-137 of `replicate-claude-code.py`: the per-platform binary
locators `{version}/{platform}/{binary_name}` enumerated from the manifest's
platform names. -/
def binary_locators (version : List Char) (platforms : List (List Char)) :
    List (List Char) :=
  platforms.map (fun p => version ++ [ '/'] ++ p ++ [ '/'] ++ binary_name p)

/-- One replication of `replicate_image` (lines 146-166 of
`replicate-container-image.py`): pull the source reference, tag it as the
target reference, push the target reference; each docker command is an
external effect modelled as a function returning `Except`, and a non-zero
exit is an `error` carrying the diagnostic value. -/
def replicate_image {ε : Type} (pull : List Char → Except ε Unit)
    (tagCmd : List Char → List Char → Except ε Unit)
    (push : List Char → Except ε Unit) (base img : List Char) :
    Except ε Unit := do
  let target := target_of_ref base img
  pull img
  tagCmd img target
  push target

/-- Lines 199-204 of `replicate-container-image.py`: the batch loop
`for image in images: try replicate_image(image) except: log; raise`.
Returns the list of images on which `replicate_image` was invoked, and the
first error (re-raised, aborting the rest of the batch) if any. -/
def main_loop {ε : Type} (f : List Char → Except ε Unit) :
    List (List Char) → List (List Char) × Option ε
  | [] => ([], none)
  | img :: rest =>
    match f img with
    | Except.ok _ =>
      let r := main_loop f rest
      (img :: r.1, r.2)
    | Except.error e => ([img], some e)

/-- One step of `simple_download_and_upload` (lines 65-85 of
`replicate-claude-code.py`), used to record the order of its side effects. -/
inductive SduStep where
  | create
  | fetch
  | status
  | writeBody
  | upload
  | unlink
  deriving DecidableEq

/-- The `try`/`finally` of `simple_download_and_upload`: the `finally` steps
run after the body whether the body succeeded or raised. -/
def tryFinally (body : List SduStep × Bool) (fin : List SduStep) :
    List SduStep × Bool :=
  (body.1 ++ fin, body.2)

/-- Body of the `try` in `simple_download_and_upload`: fetch the URL, check
the HTTP status, stream the body to the temporary file, upload it.  Each step
may raise (flag `true` means it fails); the trace stops at the first failure
and the second component records overall success. -/
def sduBody (fetchFails statusFails uploadFails : Bool) :
    List SduStep × Bool :=
  if fetchFails then ([SduStep.fetch], false)
  else if statusFails then ([SduStep.fetch, SduStep.status], false)
  else if uploadFails then
    ([SduStep.fetch, SduStep.status, SduStep.writeBody, SduStep.upload], false)
  else
    ([SduStep.fetch, SduStep.status, SduStep.writeBody, SduStep.upload], true)

/-- `simple_download_and_upload` (lines 65-85 of `replicate-claude-code.py`):
create the temporary staging file, then run the transfer body inside
`try ... finally os.unlink(local_path)`.  The trace lists the side effects in
order; the Bool records whether the transfer succeeded. -/
def simple_download_and_upload (fetchFails statusFails uploadFails : Bool) :
    List SduStep × Bool :=
  let inner := tryFinally (sduBody fetchFails statusFails uploadFails)
    [SduStep.unlink]
  (SduStep.create :: inner.1, inner.2)

/-- Python's `\s` for `str` patterns matches Unicode whitespace: the
characters carrying CPython's WHITESPACE flag — TAB, LF, VT, FF, CR
(U+0009..U+000D), the information separators U+001C..U+001F, SPACE, NEL
(U+0085), NO-BREAK SPACE (U+00A0), OGHAM SPACE MARK (U+1680), the typographic
spaces U+2000..U+200A, LINE SEPARATOR (U+2028), PARAGRAPH SEPARATOR
(U+2029), NARROW NO-BREAK SPACE (U+202F), MEDIUM MATHEMATICAL SPACE
(U+205F) and IDEOGRAPHIC SPACE (U+3000). -/
def pyWhitespace (c : Char) : Bool :=
  decide (c.toNat ∈ [0x09, 0x0A, 0x0B, 0x0C, 0x0D, 0x1C, 0x1D, 0x1E, 0x1F,
    0x20, 0x85, 0xA0, 0x1680, 0x2000, 0x2001, 0x2002, 0x2003, 0x2004,
    0x2005, 0x2006, 0x2007, 0x2008, 0x2009, 0x200A, 0x2028, 0x2029, 0x202F,
    0x205F, 0x3000])

/-- Character class of the regex `https://[^\s"'\n\r]+` in
`extract_src_base_url` (line 56 of `replicate-claude-code.py`): not Unicode
whitespace (`\n` and `\r` are already inside `\s`) and not a quote. -/
def urlChar (c : Char) : Bool :=
  !pyWhitespace c && !(c = '"') && !(c = '\'')

/-- The literal `https://` of the regex. -/
def httpsLit : List Char := "https://".data

/-- Does the regex `https://[^\s"'\n\r]+` match at the head of `s`?  It does
exactly when the literal is a prefix and at least one `urlChar` follows. -/
def urlMatchHead (s : List Char) : Bool :=
  httpsLit.isPrefixOf s &&
    (match s.drop 8 with
     | [] => false
     | c :: _ => urlChar c)

/-- Does the regex match at position `p` of `s`? -/
def urlMatchB (s : List Char) (p : Nat) : Bool :=
  urlMatchHead (s.drop p)

/-- The leftmost regex match of `https://[^\s"'\n\r]+` in `s` (the first
element of Python's `re.findall`): scan positions left to right; at the first
matching position take the literal plus the maximal run of `urlChar`s. -/
def findFirstUrl : List Char → Option (List Char)
  | [] => none
  | c :: rest =>
    if urlMatchHead (c :: rest) then
      some (httpsLit ++ ((c :: rest).drop 8).takeWhile urlChar)
    else
      findFirstUrl rest

/-- `extract_src_base_url` (lines 52-62 of `replicate-claude-code.py`):
return the first regex match with trailing `"` then `'` characters stripped;
`none` models the raised `ValueError` when no match exists. -/
def extract_src_base_url (s : List Char) : Option (List Char) :=
  (findFirstUrl s).map (fun u => pyRstrip [ '\''] (pyRstrip [ '"'] u))

end ReplicateAssets

namespace ReplicateAssets

example : parse_image ( "docker.io/library/nginx:latest".data) =
    ( "docker.io".data, "library/nginx".data, "latest".data) := by decide

example : parse_image ( "ghcr.io/org/name:tag".data) =
    ( "ghcr.io".data, "org/name".data, "tag".data) := by decide

example : parse_image ( "nginx:latest".data) =
    ( "docker.io".data, "library/nginx".data, "latest".data) := by decide

example : parse_image ( "org/name".data) =
    ( "docker.io".data, "org/name".data, "latest".data) := by decide

example : parse_image ( "example.com".data) =
    ( "docker.io".data, "library/example.com".data, "latest".data) := by decide

example : parse_image ( "a.b//c".data) =
    ( "a.b".data, "/c".data, "latest".data) := by decide

example : parse_image ( "nginx:".data) =
    ( "docker.io".data, "library/nginx".data, []) := by decide

example : build_target_image ( "reg.example.com/mirror".data)
    ( "docker.io".data) ( "library/nginx".data) ( "latest".data) =
    "reg.example.com/mirror/docker.io-library-nginx:latest".data := by decide

example : extract_src_base_url ( "X=\"https://a.b/c\" rest".data) =
    some ( "https://a.b/c".data) := by decide

example : extract_src_base_url ( "no url here".data) = none := by decide

example : extract_src_base_url ( "https:// then https://x y".data) =
    some ( "https://x".data) := by decide

example : extract_src_base_url ( "https://\u00A0x".data) = none := by decide

example : extract_src_base_url ( "https://a\u2028b".data) =
    some ( "https://a".data) := by decide

example : binary_name ( "win-x64".data) = "claude.exe".data := by decide

example : binary_name ( "linux-x64".data) = "claude".data := by decide

example : pyReplace [ 'b', 'a'] [ 'b'] [ 'b', 'a', 'a'] = [ 'b', 'a'] := by decide

example : splitOnL [ '/'] ( "a//b".data) = [[ 'a'], [], [ 'b']] := by decide

example : splitOnL [ '/'] [] = [[]] := by decide

example : occurs ( "ba".data) ( "aba".data) = true := by decide

example : pyRstrip [ '"'] ( "ab\"\"".data) = [ 'a', 'b'] := by decide

example : joinWith [ '/'] (splitOnL [ '/'] ( "a/b/c".data)) = "a/b/c".data := by decide

/-! Generic lemmas about the embedded string operations. -/

theorem occurs_iff (pat s : List Char) :
    occurs pat s = true ↔ ∃ x y, s = x ++ pat ++ y := by
  induction s with
  | nil =>
    simp only [occurs, List.isEmpty_iff]
    constructor
    · rintro rfl
      exact ⟨[], [], rfl⟩
    · rintro ⟨x, y, h⟩
      have hlen := congrArg List.length h
      simp only [List.length_nil, List.length_append] at hlen
      exact List.length_eq_zero.mp (by omega)
  | cons c rest ih =>
    simp only [occurs, Bool.or_eq_true, ih, List.isPrefixOf_iff_prefix]
    constructor
    · rintro (⟨t, ht⟩ | ⟨x, y, rfl⟩)
      · exact ⟨[], t, by simp [ht.symm]⟩
      · exact ⟨c :: x, y, rfl⟩
    · rintro ⟨x, y, hx⟩
      cases x with
      | nil =>
        left
        exact ⟨y, by simpa using hx.symm⟩
      | cons a x' =>
        right
        simp only [List.cons_append, List.cons.injEq] at hx
        exact ⟨x', y, hx.2⟩

theorem occurs_nil_pat (s : List Char) : occurs [] s = true := by
  cases s <;> simp [occurs]

theorem pat_ne_nil_of_not_occurs {pat d : List Char}
    (h : occurs pat d = false) : pat ≠ [] := by
  intro hp
  subst hp
  simp [occurs_nil_pat] at h

theorem occurs_single (c : Char) (s : List Char) :
    occurs [c] s = true ↔ c ∈ s := by
  rw [occurs_iff]
  constructor
  · rintro ⟨x, y, rfl⟩
    simp
  · intro hc
    obtain ⟨x, y, rfl⟩ := List.mem_iff_append.mp hc
    exact ⟨x, y, by simp⟩

theorem splitGo_ne_nil (sep : List Char) (f : Nat) (s : List Char) :
    splitGo sep f s ≠ [] := by
  induction f generalizing s with
  | zero => simp [splitGo]
  | succ f ih =>
    cases s with
    | nil => simp [splitGo]
    | cons c rest =>
      simp only [splitGo]
      split
      · simp
      · split <;> simp

theorem splitGo_head_isPre (sep : List Char) (f : Nat) (s : List Char)
    (h : List Char) (t : List (List Char)) (heq : splitGo sep f s = h :: t) :
    h <+: s := by
  induction f generalizing s h t with
  | zero =>
    simp only [splitGo, List.cons.injEq] at heq
    exact heq.1 ▸ List.prefix_refl s
  | succ f ih =>
    cases s with
    | nil =>
      simp only [splitGo, List.cons.injEq] at heq
      exact heq.1 ▸ List.nil_prefix
    | cons c rest =>
      simp only [splitGo] at heq
      split at heq
      · rw [List.cons.injEq] at heq
        exact heq.1 ▸ List.nil_prefix
      · split at heq
        · rw [List.cons.injEq] at heq
          exact heq.1 ▸ ⟨rest, rfl⟩
        · rename_i h' t' hrest
          rw [List.cons.injEq] at heq
          obtain ⟨u, hu⟩ := ih rest h' t' hrest
          exact heq.1 ▸ ⟨u, by simp [hu]⟩

theorem splitGo_chunks_free (sep : List Char) (hsep : sep ≠ []) (f : Nat) :
    ∀ s : List Char, s.length ≤ f →
      ∀ ch ∈ splitGo sep f s, occurs sep ch = false := by
  induction f with
  | zero =>
    intro s hs ch hch
    have hnil : s = [] := List.length_eq_zero.mp (Nat.le_zero.mp hs)
    subst hnil
    simp only [splitGo, List.mem_singleton] at hch
    subst hch
    simp [occurs, List.isEmpty_iff, hsep]
  | succ f ih =>
    intro s hs ch hch
    cases s with
    | nil =>
      simp only [splitGo, List.mem_singleton] at hch
      subst hch
      simp [occurs, List.isEmpty_iff, hsep]
    | cons c rest =>
      simp only [splitGo] at hch
      split at hch
      · rename_i hp
        rcases List.mem_cons.mp hch with rfl | hmem
        · simp [occurs, List.isEmpty_iff, hsep]
        · refine ih _ ?_ ch hmem
          have hlen : 1 ≤ sep.length := List.length_pos.mpr hsep
          simp only [List.length_drop, List.length_cons]
          simp only [List.length_cons] at hs
          omega
      · rename_i hnp
        have hnp' : ¬ sep.isPrefixOf (c :: rest) = true := fun hx => hnp ⟨hx, hsep⟩
        rcases hsplit : splitGo sep f rest with _ | ⟨h', t'⟩
        · exact absurd hsplit (splitGo_ne_nil sep f rest)
        · rw [hsplit] at hch
          have hrest_le : rest.length ≤ f := by
            simp only [List.length_cons] at hs; omega
          rcases List.mem_cons.mp hch with rfl | hmem
          · have hh' : occurs sep h' = false :=
              ih rest hrest_le h' (hsplit ▸ List.mem_cons_self h' t')
            simp only [occurs, Bool.or_eq_false_iff]
            refine ⟨?_, hh'⟩
            cases hb : sep.isPrefixOf (c :: h') with
            | false => rfl
            | true =>
              have hpre' : sep <+: c :: h' := List.isPrefixOf_iff_prefix.mp hb
              have hh'p : h' <+: rest :=
                splitGo_head_isPre sep f rest h' t' hsplit
              have hcons : c :: h' <+: c :: rest := by
                obtain ⟨u, hu⟩ := hh'p
                exact ⟨u, by simp [hu]⟩
              exact absurd
                ( List.isPrefixOf_iff_prefix.mpr (hpre'.trans hcons)) hnp'
          · exact ih rest hrest_le ch (hsplit ▸ List.mem_cons_of_mem h' hmem)

theorem joinWith_cons_head (d : List Char) (c : Char) (h : List Char)
    (t : List (List Char)) :
    joinWith d ((c :: h) :: t) = c :: joinWith d (h :: t) := by
  cases t with
  | nil => rfl
  | cons y t' => simp [joinWith]

theorem joinWith_splitGo (sep : List Char) (hsep : sep ≠ []) (f : Nat) :
    ∀ s : List Char, s.length ≤ f → joinWith sep (splitGo sep f s) = s := by
  induction f with
  | zero =>
    intro s hs
    have hnil : s = [] := List.length_eq_zero.mp (Nat.le_zero.mp hs)
    subst hnil
    rfl
  | succ f ih =>
    intro s hs
    cases s with
    | nil => rfl
    | cons c rest =>
      simp only [splitGo]
      split
      · rename_i hp
        obtain ⟨u, hu⟩ := List.isPrefixOf_iff_prefix.mp hp.1
        rcases hsplit : splitGo sep f ((c :: rest).drop sep.length)
          with _ | ⟨h', t'⟩
        · exact absurd hsplit (splitGo_ne_nil sep f _)
        · have hdrop_le : ((c :: rest).drop sep.length).length ≤ f := by
            have hlen : 1 ≤ sep.length := List.length_pos.mpr hsep
            simp only [List.length_drop, List.length_cons]
            simp only [List.length_cons] at hs
            omega
          have hrec := ih _ hdrop_le
          rw [hsplit] at hrec
          calc joinWith sep ([] :: h' :: t')
              = [] ++ sep ++ joinWith sep (h' :: t') := rfl
            _ = sep ++ ((c :: rest).drop sep.length) := by
                simp [hrec]
            _ = c :: rest := by
                rw [← hu, List.drop_left]
      · rcases hsplit : splitGo sep f rest with _ | ⟨h', t'⟩
        · exact absurd hsplit (splitGo_ne_nil sep f rest)
        · have hrest_le : rest.length ≤ f := by
            simp only [List.length_cons] at hs; omega
          have hrec := ih rest hrest_le
          rw [hsplit] at hrec
          rw [joinWith_cons_head, hrec]

theorem replaceGo_eq_joinWith (old new : List Char) (hold : old ≠ [])
    (f : Nat) : ∀ s : List Char, s.length ≤ f →
      replaceGo old new f s = joinWith new (splitGo old f s) := by
  induction f with
  | zero =>
    intro s hs
    have hnil : s = [] := List.length_eq_zero.mp (Nat.le_zero.mp hs)
    subst hnil
    rfl
  | succ f ih =>
    intro s hs
    cases s with
    | nil => rfl
    | cons c rest =>
      simp only [replaceGo, splitGo]
      split
      · rcases hsplit : splitGo old f ((c :: rest).drop old.length)
          with _ | ⟨h', t'⟩
        · exact absurd hsplit (splitGo_ne_nil old f _)
        · have hdrop_le : ((c :: rest).drop old.length).length ≤ f := by
            have hlen : 1 ≤ old.length := List.length_pos.mpr hold
            simp only [List.length_drop, List.length_cons]
            simp only [List.length_cons] at hs
            omega
          have hrec := ih _ hdrop_le
          rw [hrec, hsplit]
          rfl
      · rcases hsplit : splitGo old f rest with _ | ⟨h', t'⟩
        · exact absurd hsplit (splitGo_ne_nil old f rest)
        · have hrest_le : rest.length ≤ f := by
            simp only [List.length_cons] at hs; omega
          have hrec := ih rest hrest_le
          rw [hsplit] at hrec
          rw [joinWith_cons_head, hrec]

theorem pyReplace_eq_joinWith (old new s : List Char) (hold : old ≠ []) :
    pyReplace old new s = joinWith new (splitOnL old s) := by
  rw [pyReplace, if_neg hold, splitOnL]
  exact replaceGo_eq_joinWith old new hold s.length s le_rfl

theorem splitOnL_chunks_free (sep s : List Char) (hsep : sep ≠ []) :
    ∀ ch ∈ splitOnL sep s, occurs sep ch = false :=
  splitGo_chunks_free sep hsep s.length s le_rfl

theorem joinWith_splitOnL (sep s : List Char) (hsep : sep ≠ []) :
    joinWith sep (splitOnL sep s) = s :=
  joinWith_splitGo sep hsep s.length s le_rfl

/-- No non-empty suffix of `d` is a proper prefix of `o` (decidable border
condition used to rule out occurrences spawned at a destination-to-text
junction). -/
def tailsSafe (o d : List Char) : Bool :=
  d.tails.all (fun n =>
    n.isEmpty || !(n.isPrefixOf o && decide (n.length < o.length)))

/-- No non-empty prefix of `d` is a proper suffix of `o` (decidable border
condition used to rule out occurrences spawned at a text-to-destination
junction). -/
def initsSafe (o d : List Char) : Bool :=
  d.inits.all (fun n =>
    n.isEmpty || !(n.isSuffixOf o && decide (n.length < o.length)))

theorem tailsSafe_elim {o d : List Char} (h : tailsSafe o d = true)
    {m n k : List Char} (hd : d = m ++ n) (hn : n ≠ []) (ho : o = n ++ k)
    (hk : k ≠ []) : False := by
  have hmem : n ∈ d.tails := (List.mem_tails n d).mpr ⟨m, hd.symm⟩
  have hall := List.all_eq_true.mp h n hmem
  have hpre : n.isPrefixOf o = true :=
    List.isPrefixOf_iff_prefix.mpr ⟨k, ho.symm⟩
  have hlen : n.length < o.length := by
    have hk' : 0 < k.length := List.length_pos.mpr hk
    subst ho
    simp only [List.length_append]
    omega
  simp [List.isEmpty_iff, hn, hpre, hlen] at hall

theorem initsSafe_elim {o d : List Char} (h : initsSafe o d = true)
    {m n k : List Char} (ho : o = m ++ n) (hm : m ≠ []) (hn : n ≠ [])
    (hd : d = n ++ k) : False := by
  have hmem : n ∈ d.inits := (List.mem_inits n d).mpr ⟨k, hd.symm⟩
  have hall := List.all_eq_true.mp h n hmem
  have hsuf : n.isSuffixOf o = true :=
    List.isSuffixOf_iff_suffix.mpr ⟨m, ho.symm⟩
  have hlen : n.length < o.length := by
    have hm' : 0 < m.length := List.length_pos.mpr hm
    subst ho
    simp only [List.length_append]
    omega
  simp [List.isEmpty_iff, hn, hsuf, hlen] at hall

/-- Key safety theorem for reference rewriting: if the origin pattern `o` does
not occur in the destination `d`, `d` does not occur in `o`, and the two
border conditions hold, then joining any `o`-free chunks with `d` yields a
text with no occurrence of `o`. -/
theorem occurs_joinWith_eq_false (o d : List Char)
    (h1 : occurs o d = false) (h2 : occurs d o = false)
    (h3 : tailsSafe o d = true) (h4 : initsSafe o d = true) :
    ∀ L : List (List Char), (∀ ch ∈ L, occurs o ch = false) →
      occurs o (joinWith d L) = false := by
  have ho_ne : o ≠ [] := pat_ne_nil_of_not_occurs h1
  intro L
  induction L with
  | nil =>
    intro _
    simp [joinWith, occurs, List.isEmpty_iff, ho_ne]
  | cons c cs ih =>
    intro hfree
    cases cs with
    | nil => simpa [joinWith] using hfree c (by simp)
    | cons c2 cs' =>
      have hcfree : occurs o c = false := hfree c (by simp)
      have hJfree : occurs o (joinWith d (c2 :: cs')) = false :=
        ih (fun ch hch => hfree ch (List.mem_cons_of_mem _ hch))
      set J := joinWith d (c2 :: cs') with hJdef
      have hgoal : joinWith d (c :: c2 :: cs') = c ++ d ++ J := rfl
      rw [hgoal]
      cases hocc : occurs o (c ++ d ++ J) with
      | false => rfl
      | true =>
        exfalso
        obtain ⟨x, y, hxy⟩ := (occurs_iff o _).mp hocc
        have hxy' : x ++ (o ++ y) = c ++ (d ++ J) := by
          rw [← List.append_assoc, ← List.append_assoc, ← hxy]
        rcases List.append_eq_append_iff.mp hxy' with
          ⟨m, hc, hrest⟩ | ⟨m, hx, hrest⟩
        · -- The occurrence starts inside (or at the start of) the chunk `c`.
          rcases List.append_eq_append_iff.mp hrest with
            ⟨n, hm, _⟩ | ⟨n, ho2, hdj⟩
          · -- o fully inside c
            have : occurs o c = true :=
              (occurs_iff o c).mpr ⟨x, n, by rw [hc, hm, List.append_assoc]⟩
            rw [this] at hcfree
            exact Bool.true_eq_false.mp hcfree
          · by_cases hn : n = []
            · subst hn
              have hm' : o = m := by simpa using ho2
              have : occurs o c = true :=
                (occurs_iff o c).mpr ⟨x, [], by rw [hc, ← hm']; simp⟩
              rw [this] at hcfree
              exact Bool.true_eq_false.mp hcfree
            · rcases List.append_eq_append_iff.mp hdj with
                ⟨k, hn2, _⟩ | ⟨k, hd2, _⟩
              · -- d fully inside o
                have : occurs d o = true :=
                  (occurs_iff d o).mpr
                    ⟨m, k, by rw [ho2, hn2, List.append_assoc]⟩
                rw [this] at h2
                exact Bool.true_eq_false.mp h2
              · by_cases hm0 : m = []
                · subst hm0
                  have ho3 : o = n := by simpa using ho2
                  have : occurs o d = true :=
                    (occurs_iff o d).mpr ⟨[], k, by rw [hd2, ho3]; simp⟩
                  rw [this] at h1
                  exact Bool.true_eq_false.mp h1
                · exact initsSafe_elim h4 ho2 hm0 hn hd2
        · -- The occurrence starts inside `d` or beyond it.
          rcases List.append_eq_append_iff.mp hrest with
            ⟨n, hm, hJ2⟩ | ⟨n, hd2, hoy⟩
          · -- o fully inside J
            have : occurs o J = true :=
              (occurs_iff o J).mpr ⟨n, y, by rw [hJ2, List.append_assoc]⟩
            rw [this] at hJfree
            exact Bool.true_eq_false.mp hJfree
          · rcases List.append_eq_append_iff.mp hoy with
              ⟨k, hn2, _⟩ | ⟨k, ho3, hJ3⟩
            · -- o fully inside d
              have : occurs o d = true :=
                (occurs_iff o d).mpr
                  ⟨m, k, by rw [hd2, hn2, List.append_assoc]⟩
              rw [this] at h1
              exact Bool.true_eq_false.mp h1
            · by_cases hn : n = []
              · subst hn
                have ho4 : o = k := by simpa using ho3
                have : occurs o J = true :=
                  (occurs_iff o J).mpr ⟨[], y, by rw [hJ3, ho4]; simp⟩
                rw [this] at hJfree
                exact Bool.true_eq_false.mp hJfree
              · by_cases hk : k = []
                · subst hk
                  have ho4 : o = n := by simpa using ho3
                  have : occurs o d = true :=
                    (occurs_iff o d).mpr ⟨m, [], by rw [hd2, ho4]; simp⟩
                  rw [this] at h1
                  exact Bool.true_eq_false.mp h1
                · exact tailsSafe_elim h3 hd2 hn ho3 hk

/-- Single-character replacement is the character-wise map: Python's
`s.replace("/", "-")` sends each `/` to `-` and leaves other characters
unchanged. -/
theorem pyReplace_single (a b : Char) (s : List Char) :
    pyReplace [a] [b] s = s.map (fun c => if c = a then b else c) := by
  have hgo : ∀ (f : Nat) (s : List Char), s.length ≤ f →
      replaceGo [a] [b] f s = s.map (fun c => if c = a then b else c) := by
    intro f
    induction f with
    | zero =>
      intro s hs
      have hnil : s = [] := List.length_eq_zero.mp (Nat.le_zero.mp hs)
      subst hnil
      rfl
    | succ f ih =>
      intro s hs
      cases s with
      | nil => rfl
      | cons c rest =>
        have hrest_le : rest.length ≤ f := by
          simp only [List.length_cons] at hs; omega
        by_cases hac : a = c
        · subst hac
          have hp : List.isPrefixOf [a] (a :: rest) = true := by
            simp [List.isPrefixOf]
          simp only [replaceGo, hp, ne_eq, List.cons_ne_nil,
            not_false_iff, and_true, if_true, List.drop_succ_cons,
            List.drop_zero, List.length_nil, List.map_cons, if_pos rfl,
            List.length_cons]
          rw [ih rest hrest_le]
          rfl
        · have hp : ¬ (List.isPrefixOf [a] (c :: rest) = true ∧
              ([a] : List Char) ≠ []) := by
            intro hcontra
            obtain ⟨t, ht⟩ := List.isPrefixOf_iff_prefix.mp hcontra.1
            simp only [List.cons_append, List.nil_append,
              List.cons.injEq] at ht
            exact hac ht.1
          simp only [replaceGo, if_neg hp, List.map_cons]
          rw [ih rest hrest_le]
          have : ¬ c = a := fun h => hac h.symm
          simp [this]
  rw [pyReplace, if_neg (by simp : ([a] : List Char) ≠ [])]
  exact hgo s.length s le_rfl

theorem takeWhile_append_cons {p : Char → Bool} (xs : List Char) (y : Char)
    (ys : List Char) (hall : ∀ x ∈ xs, p x = true) (hy : p y = false) :
    (xs ++ y :: ys).takeWhile p = xs := by
  induction xs with
  | nil => simp [List.takeWhile_cons, hy]
  | cons a xs ih =>
    have ha := hall a (by simp)
    simp [List.takeWhile_cons, ha,
      ih (fun x hx => hall x (List.mem_cons_of_mem a hx))]

theorem dropWhile_append_cons {p : Char → Bool} (xs : List Char) (y : Char)
    (ys : List Char) (hall : ∀ x ∈ xs, p x = true) (hy : p y = false) :
    (xs ++ y :: ys).dropWhile p = y :: ys := by
  induction xs with
  | nil => simp [List.dropWhile_cons, hy]
  | cons a xs ih =>
    have ha := hall a (by simp)
    simp [List.dropWhile_cons, ha,
      ih (fun x hx => hall x (List.mem_cons_of_mem a hx))]

theorem dropWhile_eq_self_of {p : Char → Bool} (l : List Char)
    (h : ∀ x ∈ l, p x = false) : l.dropWhile p = l := by
  cases l with
  | nil => rfl
  | cons a l => simp [List.dropWhile_cons, h a (by simp)]

theorem pyRstrip_eq_self (cs s : List Char) (h : ∀ x ∈ s, x ∉ cs) :
    pyRstrip cs s = s := by
  unfold pyRstrip
  rw [dropWhile_eq_self_of]
  · exact List.reverse_reverse s
  · intro x hx
    simp only [decide_eq_false_iff_not]
    exact h x (List.mem_reverse.mp hx)

theorem head?_append_left {xs : List Char} (ys : List Char) (h : xs ≠ []) :
    (xs ++ ys).head? = xs.head? := by
  cases xs with
  | nil => cases h rfl
  | cons a t => rfl

theorem getLast?_append_right (xs : List Char) {ys : List Char}
    (h : ys ≠ []) : (xs ++ ys).getLast? = ys.getLast? := by
  rw [← List.head?_reverse, ← List.head?_reverse, List.reverse_append]
  exact head?_append_left xs.reverse (by simpa using h)

theorem mem_of_head?_eq {l : List Char} {a : Char} (h : l.head? = some a) :
    a ∈ l := by
  cases l with
  | nil => cases h
  | cons b t =>
    have hb : b = a := by simpa using h
    exact hb ▸ List.mem_cons_self b t

theorem mem_of_getLast?_eq {l : List Char} {a : Char}
    (h : l.getLast? = some a) : a ∈ l := by
  rw [← List.head?_reverse] at h
  exact List.mem_reverse.mp (mem_of_head?_eq h)

theorem joinWith_head? (d : List Char) (h : List Char)
    (t : List (List Char)) (hh : h ≠ []) :
    (joinWith d (h :: t)).head? = h.head? := by
  cases t with
  | nil => rfl
  | cons y t' =>
    show (h ++ d ++ joinWith d (y :: t')).head? = h.head?
    rw [List.append_assoc]
    exact head?_append_left _ hh

theorem joinWith_ne_nil (d : List Char) (h : List Char)
    (t : List (List Char)) (hh : h ≠ []) : joinWith d (h :: t) ≠ [] := by
  intro hcontra
  have h1 := joinWith_head? d h t hh
  rw [hcontra] at h1
  cases h with
  | nil => exact hh rfl
  | cons a hs => exact Option.noConfusion h1

theorem joinWith_head_ne (c : Char) (d : List Char) (h : List Char)
    (t : List (List Char)) (hh : h ≠ []) (hc : c ∉ h) :
    (joinWith d (h :: t)).head? ≠ some c := by
  rw [joinWith_head? d h t hh]
  intro hx
  exact hc (mem_of_head?_eq hx)

theorem joinWith_getLast_ne (c : Char) (d : List Char)
    (L : List (List Char)) : L ≠ [] → (∀ seg ∈ L, seg ≠ [] ∧ c ∉ seg) →
      (joinWith d L).getLast? ≠ some c := by
  induction L with
  | nil => intro h _; cases h rfl
  | cons h t ih =>
    intro _ hsegs
    cases t with
    | nil =>
      intro hlast
      exact (hsegs h (by simp)).2 (mem_of_getLast?_eq hlast)
    | cons y t' =>
      have hyne := (hsegs y (by simp)).1
      have hJne : joinWith d (y :: t') ≠ [] := joinWith_ne_nil d y t' hyne
      have hre : (joinWith d (h :: y :: t')).getLast? =
          (joinWith d (y :: t')).getLast? := by
        show (h ++ d ++ joinWith d (y :: t')).getLast? = _
        rw [List.append_assoc,
          getLast?_append_right h (by simp [hJne]),
          getLast?_append_right d hJne]
      rw [hre]
      exact ih (by simp) (fun seg hs => hsegs seg (List.mem_cons_of_mem _ hs))

theorem map_cond_id {f : Char → Char} (l : List Char)
    (h : ∀ c ∈ l, f c = c) : l.map f = l := by
  induction l with
  | nil => rfl
  | cons a t ih =>
    simp [h a (by simp), ih (fun c hc => h c (List.mem_cons_of_mem a hc))]

/-! Structural lemmas about `parse_image` and its pieces. -/

theorem parse_image_eq (image : List Char) :
    parse_image image =
      ((detect_registry (split_tag image).1).1,
        add_library (detect_registry (split_tag image).1).1
          (detect_registry (split_tag image).1).2,
        (split_tag image).2) := rfl

theorem splitOnL_slash_free (ip : List Char) :
    ∀ seg ∈ splitOnL [ '/'] ip, '/' ∉ seg := by
  intro seg hseg hmem
  have hocc := splitOnL_chunks_free [ '/'] ip (by simp) seg hseg
  rw [(occurs_single '/' seg).mpr hmem] at hocc
  exact Bool.true_eq_false.mp hocc

theorem add_library_path_ok (r p0 : List Char) (hne : p0 ≠ [])
    (hhead : p0.head? ≠ some '/') (hlast : p0.getLast? ≠ some '/') :
    (add_library r p0).head? ≠ some '/' ∧
    (add_library r p0).getLast? ≠ some '/' := by
  unfold add_library
  split
  · constructor
    · rw [head?_append_left p0 (by decide : libraryL ≠ [])]
      decide
    · rw [getLast?_append_right libraryL hne]
      exact hlast
  · exact ⟨hhead, hlast⟩

theorem joinWith_slash_ok (L : List (List Char)) (hL : L ≠ [])
    (hsegs : ∀ seg ∈ L, seg ≠ [] ∧ '/' ∉ seg) :
    joinWith [ '/'] L ≠ [] ∧
    (joinWith [ '/'] L).head? ≠ some '/' ∧
    (joinWith [ '/'] L).getLast? ≠ some '/' := by
  obtain ⟨a, t, rfl⟩ := List.exists_cons_of_ne_nil hL
  have ha := hsegs a (by simp)
  exact ⟨joinWith_ne_nil _ a t ha.1, joinWith_head_ne '/' _ a t ha.1 ha.2,
    joinWith_getLast_ne '/' _ (a :: t) (by simp) hsegs⟩

/-- C1 (amended): when the pre-tag part of the reference has at least two
slash-separated segments and the first one contains a dot or is `localhost`,
`parse_image` returns that first segment as the registry and the remaining
segments re-joined (subject to the `library/` namespace rule) as the path;
in every other case — including a reference consisting of a single dotted
segment with no `/` — the registry is the implicit default `docker.io` and
the path is the whole pre-tag part (subject to the same rule). -/
theorem c1_registry_detection_amended (image : List Char) :
    ((2 ≤ (splitOnL [ '/'] (split_tag image).1).length ∧
        ('.' ∈ (splitOnL [ '/'] (split_tag image).1).headD [] ∨
          (splitOnL [ '/'] (split_tag image).1).headD [] = localhostL)) →
      (parse_image image).1 = (splitOnL [ '/'] (split_tag image).1).headD [] ∧
      (parse_image image).2.1 =
        add_library ((splitOnL [ '/'] (split_tag image).1).headD [])
          (joinWith [ '/'] (splitOnL [ '/'] (split_tag image).1).tail)) ∧
    (¬ (2 ≤ (splitOnL [ '/'] (split_tag image).1).length ∧
        ('.' ∈ (splitOnL [ '/'] (split_tag image).1).headD [] ∨
          (splitOnL [ '/'] (split_tag image).1).headD [] = localhostL)) →
      (parse_image image).1 = docker_io ∧
      (parse_image image).2.1 = add_library docker_io (split_tag image).1) := by
  constructor
  · intro h
    have hreg : detect_registry (split_tag image).1 =
        ((splitOnL [ '/'] (split_tag image).1).headD [],
          joinWith [ '/'] (splitOnL [ '/'] (split_tag image).1).tail) := by
      unfold detect_registry
      rw [if_pos h]
    rw [parse_image_eq, hreg]
    exact ⟨rfl, rfl⟩
  · intro h
    have hreg : detect_registry (split_tag image).1 =
        (docker_io, (split_tag image).1) := by
      unfold detect_registry
      rw [if_neg h]
    rw [parse_image_eq, hreg]
    exact ⟨rfl, rfl⟩

/-- C1 counterexample: `"example.com"` is a single dotted segment with no
`/`, yet `parse_image` does not return it as the registry — the claim's
"including ones consisting of a single dotted segment" case fails on the
code, which additionally requires at least two segments. -/
theorem c1_registry_detection_counterexample :
    '.' ∈ (splitOnL [ '/'] (split_tag ( "example.com".data)).1).headD [] ∧
    parse_image ( "example.com".data) =
      (docker_io, "library/example.com".data, latestL) ∧
    (parse_image ( "example.com".data)).1 ≠ "example.com".data := by decide

/-- C1 witness: both branches of the amended claim evaluated at concrete
references. -/
theorem c1_registry_detection_witness :
    ((parse_image ( "ghcr.io/org/app".data)).1 = "ghcr.io".data ∧
      (parse_image ( "ghcr.io/org/app".data)).2.1 = "org/app".data) ∧
    ((parse_image ( "nginx".data)).1 = docker_io ∧
      (parse_image ( "nginx".data)).2.1 = "library/nginx".data) := by
  constructor
  · have h := (c1_registry_detection_amended ( "ghcr.io/org/app".data)).1
      (by decide)
    refine ⟨by rw [h.1]; decide, by rw [h.2]; decide⟩
  · have h := (c1_registry_detection_amended ( "nginx".data)).2 (by decide)
    refine ⟨h.1, by rw [h.2]; decide⟩

/-- C2 (amended): `parse_image` is total by construction and for every input
the registry is non-empty and, whenever the registry is the implicit default
`docker.io`, the path carries a namespace segment (the `library/` insertion
rule); the no-leading-or-trailing-slash invariant for the path holds for all
inputs whose pre-tag slash-separated segments are non-empty, but not for all
inputs (see the counterexample). -/
theorem c2_parse_invariants_amended (image : List Char) :
    (parse_image image).1 ≠ [] ∧
    ((parse_image image).1 = docker_io → '/' ∈ (parse_image image).2.1) ∧
    ((∀ seg ∈ splitOnL [ '/'] (split_tag image).1, seg ≠ []) →
      (parse_image image).2.1.head? ≠ some '/' ∧
      (parse_image image).2.1.getLast? ≠ some '/') := by
  refine ⟨?_, ?_, ?_⟩
  · rw [parse_image_eq]
    show (detect_registry (split_tag image).1).1 ≠ []
    unfold detect_registry
    split
    · rename_i h
      show (splitOnL [ '/'] (split_tag image).1).headD [] ≠ []
      rcases h.2 with hdot | hloc
      · exact List.ne_nil_of_mem hdot
      · rw [hloc]; decide
    · show docker_io ≠ []
      decide
  · rw [parse_image_eq]
    intro hreg
    show '/' ∈ add_library (detect_registry (split_tag image).1).1
      (detect_registry (split_tag image).1).2
    rw [hreg]
    unfold add_library
    split
    · exact List.mem_append_left _ (by decide)
    · rename_i h
      rcases not_and_or.mp h with h1 | h2
      · exact absurd rfl h1
      · exact not_not.mp h2
  · intro hsegs
    have hfree := splitOnL_slash_free (split_tag image).1
    have hgood : ∀ seg ∈ splitOnL [ '/'] (split_tag image).1,
        seg ≠ [] ∧ '/' ∉ seg :=
      fun seg hs => ⟨hsegs seg hs, hfree seg hs⟩
    rw [parse_image_eq]
    show (add_library (detect_registry (split_tag image).1).1
        (detect_registry (split_tag image).1).2).head? ≠ some '/' ∧
      (add_library (detect_registry (split_tag image).1).1
        (detect_registry (split_tag image).1).2).getLast? ≠ some '/'
    unfold detect_registry
    split
    · rename_i h
      rcases hparts : splitOnL [ '/'] (split_tag image).1 with _ | ⟨a, t⟩
      · exact absurd hparts (splitGo_ne_nil _ _ _)
      · rw [hparts] at hgood h
        cases t with
        | nil => simp at h
        | cons b t' =>
          have hjoin := joinWith_slash_ok (b :: t') (by simp)
            (fun seg hs => hgood seg (List.mem_cons_of_mem a hs))
          exact add_library_path_ok _ _ hjoin.1 hjoin.2.1 hjoin.2.2
    · have hid := joinWith_splitOnL [ '/'] (split_tag image).1 (by simp)
      have hparts_ne := splitGo_ne_nil [ '/']
        (split_tag image).1.length (split_tag image).1
      have hjoin := joinWith_slash_ok (splitOnL [ '/'] (split_tag image).1)
        hparts_ne hgood
      rw [hid] at hjoin
      exact add_library_path_ok _ _ hjoin.1 hjoin.2.1 hjoin.2.2

/-- C2 counterexample: the input `"a.b//c"` (an empty segment after the
registry) parses to the path `"/c"`, which starts with `/`, refuting the
unconditional "path never starts or ends with `/`" part of the claim. -/
theorem c2_parse_invariants_counterexample :
    parse_image ( "a.b//c".data) = ( "a.b".data, "/c".data, latestL) ∧
    (parse_image ( "a.b//c".data)).2.1.head? = some '/' := by decide

/-- C2 witness: the amended invariants evaluated at a concrete reference. -/
theorem c2_parse_invariants_witness :
    (parse_image ( "ghcr.io/org/app".data)).1 ≠ [] ∧
    ((parse_image ( "nginx".data)).1 = docker_io →
      '/' ∈ (parse_image ( "nginx".data)).2.1) ∧
    ((parse_image ( "ghcr.io/org/app".data)).2.1.head? ≠ some '/' ∧
      (parse_image ( "ghcr.io/org/app".data)).2.1.getLast? ≠ some '/') :=
  ⟨(c2_parse_invariants_amended ( "ghcr.io/org/app".data)).1,
    (c2_parse_invariants_amended ( "nginx".data)).2.1,
    (c2_parse_invariants_amended ( "ghcr.io/org/app".data)).2.2 (by decide)⟩

theorem build_target_image_map (base registry path tag : List Char) :
    build_target_image base registry path tag =
      base ++ [ '/'] ++
        ((registry ++ [ '-'] ++ path).map
          (fun c => if c = '/' then '-' else c)) ++ [ ':'] ++ tag := by
  show base ++ [ '/'] ++ pyReplace [ '/'] [ '-'] (registry ++ [ '-'] ++ path)
      ++ [ ':'] ++ tag = _
  rw [pyReplace_single]

/-- C3: `build_target_image` returns exactly the configured destination
root, then `/`, then `registry ++ "-" ++ path` with every `/` replaced by
`-`, then `:` and the tag; and composing with `parse_image` is a pure
deterministic function of the reference and the configured root. -/
theorem c3_build_target_format (base registry path tag : List Char) :
    build_target_image base registry path tag =
      base ++ [ '/'] ++
        ((registry ++ [ '-'] ++ path).map
          (fun c => if c = '/' then '-' else c)) ++ [ ':'] ++ tag ∧
    ∀ ref : List Char, target_of_ref base ref = target_of_ref base ref :=
  ⟨build_target_image_map base registry path tag, fun _ => rfl⟩

/-- Left inverse of `build_target_image` on constrained triples: strip the
root and the `/`, split the name from the tag at the first `:`, split the
registry from the path at the first `-`, and map the remaining hyphens back
to slashes. -/
def decode_target (base s : List Char) : List Char × List Char × List Char :=
  ((((s.drop (base.length + 1)).takeWhile
      (fun c => decide (c ≠ ':'))).takeWhile (fun c => decide (c ≠ '-'))),
    ((((s.drop (base.length + 1)).takeWhile
        (fun c => decide (c ≠ ':'))).dropWhile
        (fun c => decide (c ≠ '-'))).tail).map
      (fun c => if c = '-' then '/' else c),
    (((s.drop (base.length + 1)).dropWhile
      (fun c => decide (c ≠ ':'))).tail))

theorem decode_build_target (base r p t : List Char)
    (hr1 : '-' ∉ r) (hr2 : '/' ∉ r) (hr3 : ':' ∉ r)
    (hp1 : '-' ∉ p) (hp2 : ':' ∉ p) :
    decode_target base (build_target_image base r p t) = (r, p, t) := by
  have hbuild : build_target_image base r p t =
      (base ++ [ '/']) ++
        ((r ++ [ '-'] ++ p).map (fun c => if c = '/' then '-' else c) ++
          ':' :: t) := by
    rw [build_target_image_map base r p t]
    simp [List.append_assoc]
  have hmapr : r.map (fun c => if c = '/' then '-' else c) = r :=
    map_cond_id r (fun c hc => by
      have : c ≠ '/' := fun h => hr2 (h ▸ hc)
      simp [this])
  have hmapped : (r ++ [ '-'] ++ p).map (fun c => if c = '/' then '-' else c)
      = r ++ '-' :: p.map (fun c => if c = '/' then '-' else c) := by
    simp [List.map_append, hmapr]
  have hdrop : (build_target_image base r p t).drop (base.length + 1) =
      (r ++ '-' :: p.map (fun c => if c = '/' then '-' else c)) ++ ':' :: t := by
    rw [hbuild, hmapped]
    have hlen : base.length + 1 = (base ++ [ '/']).length := by simp
    rw [hlen, List.drop_left]
  have hname_chars : ∀ c ∈ r ++ '-' :: p.map
      (fun c => if c = '/' then '-' else c), decide (c ≠ ':') = true := by
    intro c hc
    simp only [decide_eq_true_iff]
    rcases List.mem_append.mp hc with hcr | hcp
    · exact fun h => hr3 (h ▸ hcr)
    · rcases List.mem_cons.mp hcp with rfl | hcp'
      · decide
      · obtain ⟨a, ha, rfl⟩ := List.mem_map.mp hcp'
        by_cases hsl : a = '/'
        · simp [hsl]
        · have : a ≠ ':' := fun h => hp2 (h ▸ ha)
          simp [hsl, this]
  have hname : ((build_target_image base r p t).drop
      (base.length + 1)).takeWhile (fun c => decide (c ≠ ':')) =
      r ++ '-' :: p.map (fun c => if c = '/' then '-' else c) := by
    rw [hdrop]
    exact takeWhile_append_cons _ ':' t hname_chars (by decide)
  have htag : (((build_target_image base r p t).drop
      (base.length + 1)).dropWhile (fun c => decide (c ≠ ':'))).tail = t := by
    rw [hdrop, dropWhile_append_cons _ ':' t hname_chars (by decide)]
    rfl
  have hr_chars : ∀ c ∈ r, decide (c ≠ '-') = true := by
    intro c hc
    simp only [decide_eq_true_iff]
    exact fun h => hr1 (h ▸ hc)
  have hreg : (r ++ '-' :: p.map
      (fun c => if c = '/' then '-' else c)).takeWhile
      (fun c => decide (c ≠ '-')) = r :=
    takeWhile_append_cons _ '-' _ hr_chars (by decide)
  have hpath : ((r ++ '-' :: p.map
      (fun c => if c = '/' then '-' else c)).dropWhile
      (fun c => decide (c ≠ '-'))).tail =
      p.map (fun c => if c = '/' then '-' else c) := by
    rw [dropWhile_append_cons _ '-' _ hr_chars (by decide)]
    rfl
  have hroundp : (p.map (fun c => if c = '/' then '-' else c)).map
      (fun c => if c = '-' then '/' else c) = p := by
    rw [List.map_map]
    refine map_cond_id p (fun c hc => ?_)
    by_cases hsl : c = '/'
    · simp [Function.comp, hsl]
    · have : c ≠ '-' := fun h => hp1 (h ▸ hc)
      simp [Function.comp, hsl, this]
  unfold decode_target
  rw [hname, htag, hreg, hpath, hroundp]

/-- C4 (amended): `build_target_image` is injective for a fixed destination
root on triples whose registry contains no `-`, `/` or `:` and whose path
contains no `-` or `:`; without these restrictions the hyphen-flattening is
not injective (see the counterexample). -/
theorem c4_target_injectivity_amended (base r1 p1 t1 r2 p2 t2 : List Char)
    (hr1a : '-' ∉ r1) (hr1b : '/' ∉ r1) (hr1c : ':' ∉ r1)
    (hp1a : '-' ∉ p1) (hp1b : ':' ∉ p1)
    (hr2a : '-' ∉ r2) (hr2b : '/' ∉ r2) (hr2c : ':' ∉ r2)
    (hp2a : '-' ∉ p2) (hp2b : ':' ∉ p2)
    (heq : build_target_image base r1 p1 t1 = build_target_image base r2 p2 t2) :
    r1 = r2 ∧ p1 = p2 ∧ t1 = t2 := by
  have h1 := decode_build_target base r1 p1 t1 hr1a hr1b hr1c hp1a hp1b
  have h2 := decode_build_target base r2 p2 t2 hr2a hr2b hr2c hp2a hp2b
  rw [heq, h2] at h1
  injection h1 with ha hbc
  injection hbc with hb hc
  exact ⟨ha.symm, hb.symm, hc.symm⟩

/-- C4 counterexample: two distinct well-formed source triples (dotted
non-empty registries, paths with no leading or trailing slash) produce the
same target name, so the mapping is not injective as claimed. -/
theorem c4_target_injectivity_counterexample :
    build_target_image ( "m.io".data) ( "a.b".data) ( "c/d".data) ( "t".data) =
      build_target_image ( "m.io".data) ( "a.b".data) ( "c-d".data) ( "t".data) ∧
    ( "c/d".data : List Char) ≠ "c-d".data ∧
    ( "a.b".data : List Char) ≠ [] ∧ '.' ∈ ( "a.b".data : List Char) ∧
    ( "c/d".data : List Char).head? ≠ some '/' ∧
    ( "c/d".data : List Char).getLast? ≠ some '/' ∧
    ( "c-d".data : List Char).head? ≠ some '/' ∧
    ( "c-d".data : List Char).getLast? ≠ some '/' := by decide

/-- C4 witness: the amended injectivity applied at concrete triples. -/
theorem c4_target_injectivity_witness :
    ( "a.b".data : List Char) = "a.b".data ∧
    ( "c/d".data : List Char) = "c/d".data ∧
    ( "t".data : List Char) = "t".data :=
  c4_target_injectivity_amended ( "m.io".data) ( "a.b".data) ( "c/d".data)
    ( "t".data) ( "a.b".data) ( "c/d".data) ( "t".data)
    (by decide) (by decide) (by decide) (by decide) (by decide)
    (by decide) (by decide) (by decide) (by decide) (by decide) rfl

/-- C7: the manifest walker chooses `claude.exe` exactly for platform names
beginning with `win` and `claude` otherwise; `win-x64` and `linux-x64` map
accordingly, and a manifest with platforms `darwin-arm64` and `win-x64`
yields exactly the two expected binary locators. -/
theorem c7_binary_name_rule :
    (∀ p : List Char, binary_name p = "claude.exe".data ↔
      ("win".data).isPrefixOf p = true) ∧
    binary_name ( "win-x64".data) = "claude.exe".data ∧
    binary_name ( "linux-x64".data) = "claude".data ∧
    ∀ v : List Char,
      binary_locators v [ "darwin-arm64".data, "win-x64".data] =
        [v ++ "/darwin-arm64/claude".data,
          v ++ "/win-x64/claude.exe".data] := by
  refine ⟨?_, by decide, by decide, ?_⟩
  · intro p
    unfold binary_name
    split
    · rename_i h
      exact ⟨fun _ => h, fun _ => rfl⟩
    · rename_i h
      constructor
      · intro habs
        exact absurd habs (by decide)
      · intro habs
        exact absurd habs h
  · intro v
    show [v ++ [ '/'] ++ "darwin-arm64".data ++ [ '/'] ++
        binary_name ( "darwin-arm64".data),
      v ++ [ '/'] ++ "win-x64".data ++ [ '/'] ++
        binary_name ( "win-x64".data)] = _
    rw [show binary_name ( "darwin-arm64".data) = "claude".data by decide,
      show binary_name ( "win-x64".data) = "claude.exe".data by decide]
    simp only [List.append_assoc]
    rw [show [ '/'] ++ ( "darwin-arm64".data ++ ([ '/'] ++ "claude".data)) =
        "/darwin-arm64/claude".data by decide,
      show [ '/'] ++ ( "win-x64".data ++ ([ '/'] ++ "claude.exe".data)) =
        "/win-x64/claude.exe".data by decide]

/-- C10: the `latest` default applies only when the reference has no colon
at all; a reference ending in `:` parses to the empty tag, and the built
target reference then ends in a bare `:`. -/
theorem c10_empty_tag_trailing_colon :
    (∀ s : List Char, ':' ∉ s → (parse_image s).2.2 = latestL) ∧
    (∀ s : List Char, s.getLast? = some ':' →
      (parse_image s).2.2 = [] ∧
      ∀ base : List Char, (target_of_ref base s).getLast? = some ':') := by
  constructor
  · intro s hs
    rw [parse_image_eq]
    show (split_tag s).2 = latestL
    unfold split_tag
    rw [if_neg hs]
  · intro s hlast
    have hmem : ':' ∈ s := mem_of_getLast?_eq hlast
    have htag : (parse_image s).2.2 = [] := by
      rw [parse_image_eq]
      show (split_tag s).2 = []
      unfold split_tag
      rw [if_pos hmem]
      have hrev : s.reverse.head? = some ':' := by
        rw [List.head?_reverse]
        exact hlast
      rcases hcase : s.reverse with _ | ⟨a, rest⟩
      · rw [hcase] at hrev
        cases hrev
      · rw [hcase] at hrev
        have ha : a = ':' := by simpa using hrev
        subst ha
        simp [List.takeWhile_cons]
    refine ⟨htag, fun base => ?_⟩
    show (build_target_image base (parse_image s).1 (parse_image s).2.1
      (parse_image s).2.2).getLast? = some ':'
    rw [htag]
    show (base ++ [ '/'] ++
      pyReplace [ '/'] [ '-'] ((parse_image s).1 ++ [ '-'] ++
        (parse_image s).2.1) ++ [ ':'] ++ ([] : List Char)).getLast? = some ':'
    rw [List.append_nil]
    rw [getLast?_append_right _ (by decide : ([ ':'] : List Char) ≠ [])]
    rfl

/-- C10 witness: concrete references with no colon and with a trailing
colon. -/
theorem c10_empty_tag_witness :
    (parse_image ( "nginx".data)).2.2 = latestL ∧
    (parse_image ( "nginx:".data)).2.2 = [] ∧
    (target_of_ref ( "m.io".data) ( "nginx:".data)).getLast? = some ':' :=
  ⟨c10_empty_tag_trailing_colon.1 ( "nginx".data) (by decide),
    (c10_empty_tag_trailing_colon.2 ( "nginx:".data) (by decide)).1,
    (c10_empty_tag_trailing_colon.2 ( "nginx:".data) (by decide)).2
      ( "m.io".data)⟩

/-! Lemmas for the regex scan of `extract_src_base_url`. -/

theorem urlMatchB_zero (s : List Char) : urlMatchB s 0 = urlMatchHead s := by
  simp [urlMatchB]

theorem urlMatchB_succ (c : Char) (rest : List Char) (p : Nat) :
    urlMatchB (c :: rest) (p + 1) = urlMatchB rest p := by
  simp [urlMatchB, List.drop_succ_cons]

theorem findFirstUrl_none_iff (s : List Char) :
    findFirstUrl s = none ↔ ∀ p < s.length, urlMatchB s p = false := by
  induction s with
  | nil => simp [findFirstUrl]
  | cons c rest ih =>
    simp only [findFirstUrl]
    split
    · rename_i hm
      constructor
      · intro h
        cases h
      · intro hall
        have h0 := hall 0 (by simp)
        rw [urlMatchB_zero, hm] at h0
        cases h0
    · rename_i hm
      have hm' : urlMatchHead (c :: rest) = false := by
        cases hb : urlMatchHead (c :: rest) with
        | false => rfl
        | true => exact absurd hb hm
      rw [ih]
      constructor
      · intro hall p hp
        cases p with
        | zero => rw [urlMatchB_zero]; exact hm'
        | succ p' =>
          rw [urlMatchB_succ]
          exact hall p' (by simpa using hp)
      · intro hall p hp
        have := hall (p + 1) (by simpa using hp)
        rwa [urlMatchB_succ] at this

theorem findFirstUrl_first (s : List Char) (p : Nat)
    (hp : urlMatchB s p = true) (hfirst : ∀ q < p, urlMatchB s q = false) :
    findFirstUrl s = some (httpsLit ++ (s.drop (p + 8)).takeWhile urlChar) := by
  induction s generalizing p with
  | nil =>
    rw [urlMatchB] at hp
    simp only [List.drop_nil] at hp
    cases hp
  | cons c rest ih =>
    simp only [findFirstUrl]
    split
    · rename_i hm
      cases p with
      | zero => rfl
      | succ p' =>
        have h0 := hfirst 0 (Nat.succ_pos p')
        rw [urlMatchB_zero, hm] at h0
        cases h0
    · rename_i hm
      cases p with
      | zero =>
        rw [urlMatchB_zero] at hp
        exact absurd hp hm
      | succ p' =>
        have hp' : urlMatchB rest p' = true := by
          rw [← urlMatchB_succ c rest p']
          exact hp
        have hfirst' : ∀ q < p', urlMatchB rest q = false := by
          intro q hq
          have := hfirst (q + 1) (by omega)
          rwa [urlMatchB_succ] at this
        rw [ih p' hp' hfirst']
        have hd : rest.drop (p' + 8) = (c :: rest).drop (p' + 1 + 8) := by
          rw [show p' + 1 + 8 = (p' + 8) + 1 by omega, List.drop_succ_cons]
        rw [hd]

theorem urlChar_parts {c : Char} (h : urlChar c = true) :
    pyWhitespace c = false ∧ c ≠ '"' ∧ c ≠ '\'' := by
  simp only [urlChar, Bool.and_eq_true, Bool.not_eq_true',
    decide_eq_false_iff_not] at h
  exact ⟨h.1.1, h.1.2, h.2⟩

theorem urlMatch_run {s : List Char} {p : Nat} (hp : urlMatchB s p = true) :
    httpsLit.isPrefixOf (s.drop p) = true ∧
    (s.drop (p + 8)).takeWhile urlChar ≠ [] := by
  rw [urlMatchB, urlMatchHead, Bool.and_eq_true] at hp
  refine ⟨hp.1, ?_⟩
  have hdd : List.drop 8 (List.drop p s) = List.drop (p + 8) s := by
    rw [List.drop_drop, Nat.add_comm]
  rcases hcase : List.drop 8 (List.drop p s) with _ | ⟨c, cs⟩
  · rw [hcase] at hp
    exact absurd hp.2 (by decide)
  · rw [hcase] at hp
    have hc : urlChar c = true := hp.2
    rw [← hdd, hcase]
    simp [List.takeWhile_cons, hc]

/-- C5: `extract_src_base_url` fails exactly when the regex
`https://[^\s"'\n\r]+` (with `\s` the Unicode whitespace class of Python
`str` patterns) matches at no position of the text, and when the regex first
matches at position `p` it returns `https://` followed by the maximal
non-empty run of non-whitespace non-quote characters starting after the
literal, a result that contains no quote or whitespace characters at all
(in particular none trailing). -/
theorem c5_extract_url_first_match (s : List Char) :
    (extract_src_base_url s = none ↔ ∀ p < s.length, urlMatchB s p = false) ∧
    (∀ p : Nat, urlMatchB s p = true → (∀ q < p, urlMatchB s q = false) →
      extract_src_base_url s =
        some (httpsLit ++ (s.drop (p + 8)).takeWhile urlChar) ∧
      (s.drop (p + 8)).takeWhile urlChar ≠ [] ∧
      ∀ ch ∈ httpsLit ++ (s.drop (p + 8)).takeWhile urlChar,
        pyWhitespace ch = false ∧ ch ≠ '"' ∧ ch ≠ '\'') := by
  constructor
  · rw [← findFirstUrl_none_iff]
    unfold extract_src_base_url
    rw [Option.map_eq_none']
  · intro p hp hfirst
    have hfind := findFirstUrl_first s p hp hfirst
    have hchars : ∀ ch ∈ httpsLit ++ (s.drop (p + 8)).takeWhile urlChar,
        pyWhitespace ch = false ∧ ch ≠ '"' ∧ ch ≠ '\'' := by
      have hlitchars : ∀ ch ∈ httpsLit,
          pyWhitespace ch = false ∧ ch ≠ '"' ∧ ch ≠ '\'' := by decide
      intro ch hch
      rcases List.mem_append.mp hch with hlit | hrun
      · exact hlitchars ch hlit
      · exact urlChar_parts (List.mem_takeWhile_imp hrun)
    refine ⟨?_, (urlMatch_run hp).2, hchars⟩
    unfold extract_src_base_url
    rw [hfind]
    simp only [Option.map_some']
    congr 1
    rw [pyRstrip_eq_self [ '"'] _ (fun x hx => by
        simp only [List.mem_singleton]
        exact (hchars x hx).2.1)]
    rw [pyRstrip_eq_self [ '\''] _ (fun x hx => by
        simp only [List.mem_singleton]
        exact (hchars x hx).2.2)]

/-- C5 witness: a text whose single URL token is delimited by a quote. -/
theorem c5_extract_url_witness :
    extract_src_base_url ( "A=\"https://a.b/c\" tail".data) =
      some ( "https://a.b/c".data) := by
  have h := (c5_extract_url_first_match ( "A=\"https://a.b/c\" tail".data)).2
    3 (by decide) (by decide)
  rw [h.1]
  decide

/-- C6 (amended): reference rewriting is the literal left-to-right
replacement of the origin by the destination — the rewritten text is the
origin-delimited chunks of the original joined by the destination — and it
leaves zero occurrences of the origin provided the origin does not occur in
the destination, the destination does not occur in the origin, no non-empty
suffix of the destination is a proper prefix of the origin, and no non-empty
prefix of the destination is a proper suffix of the origin.  The original
hypothesis (destination does not contain origin) alone is not sufficient:
see the counterexample. -/
theorem c6_rewrite_amended (text o d : List Char)
    (h1 : occurs o d = false) (h2 : occurs d o = false)
    (h3 : tailsSafe o d = true) (h4 : initsSafe o d = true) :
    pyReplace o d text = joinWith d (splitOnL o text) ∧
    occurs o (pyReplace o d text) = false := by
  have ho_ne : o ≠ [] := pat_ne_nil_of_not_occurs h1
  have hrw := pyReplace_eq_joinWith o d text ho_ne
  refine ⟨hrw, ?_⟩
  rw [hrw]
  exact occurs_joinWith_eq_false o d h1 h2 h3 h4 _
    (splitOnL_chunks_free o text ho_ne)

/-- C6 counterexample: replacing `"ba"` by `"b"` in `"baa"` yields `"ba"`,
which still contains the origin `"ba"` even though the destination `"b"`
does not contain it — the claimed zero-occurrence guarantee fails. -/
theorem c6_rewrite_counterexample :
    occurs ( "ba".data) ( "b".data) = false ∧
    pyReplace ( "ba".data) ( "b".data) ( "baa".data) = "ba".data ∧
    occurs ( "ba".data) (pyReplace ( "ba".data) ( "b".data)
      ( "baa".data)) = true := by decide

/-- C6 witness: the amended rewrite guarantee at a concrete URL pair. -/
theorem c6_rewrite_witness :
    pyReplace ( "https://a.example.com".data)
        ( "https://mirror.example.org".data)
        ( "curl https://a.example.com/stable".data) =
      joinWith ( "https://mirror.example.org".data)
        (splitOnL ( "https://a.example.com".data)
          ( "curl https://a.example.com/stable".data)) ∧
    occurs ( "https://a.example.com".data)
      (pyReplace ( "https://a.example.com".data)
        ( "https://mirror.example.org".data)
        ( "curl https://a.example.com/stable".data)) = false :=
  c6_rewrite_amended ( "curl https://a.example.com/stable".data)
    ( "https://a.example.com".data) ( "https://mirror.example.org".data)
    (by decide) (by decide) (by decide) (by decide)

/-- C8: in the image pipeline batch loop, if every image before the failing
one replicates successfully and the failing image's replication raises (any
of pull, tag or push failing makes `replicate_image` raise), then the loop
processes exactly the images up to and including the failing one — none of
the later images is attempted — and the error is re-raised. -/
theorem c8_batch_abort_on_failure {ε : Type}
    (pull : List Char → Except ε Unit)
    (tagCmd : List Char → List Char → Except ε Unit)
    (push : List Char → Except ε Unit) (base : List Char)
    (pre : List (List Char)) (x : List Char) (post : List (List Char))
    (e : ε)
    (hok : ∀ y ∈ pre, replicate_image pull tagCmd push base y = Except.ok ())
    (hfail : replicate_image pull tagCmd push base x = Except.error e) :
    main_loop (replicate_image pull tagCmd push base) (pre ++ x :: post) =
      (pre ++ [x], some e) := by
  induction pre with
  | nil => simp [main_loop, hfail]
  | cons a pre ih =>
    have ha := hok a (by simp)
    have hrec := ih (fun y hy => hok y (List.mem_cons_of_mem _ hy))
    simp only [List.cons_append, main_loop, ha, List.append_eq, hrec]

/-- C8 witness: a five-image batch whose third image fails on the tag step
is cut off after the third image. -/
theorem c8_batch_abort_witness :
    main_loop (replicate_image (fun _ => Except.ok ())
        (fun s _ => if s = ( "c.io/x".data) then Except.error 7
          else Except.ok ())
        (fun _ => Except.ok ()) ( "m.io".data))
      [ "a".data, "b".data, "c.io/x".data, "d".data, "e".data] =
      ([ "a".data, "b".data, "c.io/x".data], some 7) := by
  have h := c8_batch_abort_on_failure (ε := Nat) (fun _ => Except.ok ())
    (fun s _ => if s = ( "c.io/x".data) then Except.error 7
      else Except.ok ())
    (fun _ => Except.ok ()) ( "m.io".data)
    [ "a".data, "b".data] ( "c.io/x".data) [ "d".data, "e".data] 7
    (by
      intro y hy
      rcases List.mem_cons.mp hy with rfl | hy2
      · rfl
      rcases List.mem_cons.mp hy2 with rfl | hy3
      · rfl
      · cases hy3)
    (by rfl)
  simpa using h

/-- C9: in `simple_download_and_upload` the temporary staging file is
removed before the call returns on the success path and on every exception
path (fetch failure, non-success HTTP status, upload failure): the last
side effect of every run is `unlink`, the file is created first, and the
run succeeds exactly when no step fails. -/
theorem c9_temp_file_always_removed (fetchFails statusFails uploadFails : Bool) :
    (simple_download_and_upload fetchFails statusFails uploadFails).1.getLast?
        = some SduStep.unlink ∧
    (simple_download_and_upload fetchFails statusFails
        uploadFails).1.head? = some SduStep.create ∧
    ((simple_download_and_upload fetchFails statusFails uploadFails).2 = true
      ↔ fetchFails = false ∧ statusFails = false ∧ uploadFails = false) := by
  cases fetchFails <;> cases statusFails <;> cases uploadFails <;> decide

end ReplicateAssets
